import Mathlib

/-!
Shallow embedding of the mutual-fund evaluator (src/run.py) core:
the price series, the valuation engine `calculate_portfolio_value`,
the fuzzy scheme matcher `fuzzy_match_scheme`, and the comparison
orchestrator `compare_portfolios`.  Monetary quantities (units, NAVs,
amounts) are modelled as exact rationals standing for the source's
float64 values; calendar dates are modelled as natural numbers ordered
chronologically.  Fallible steps (a pandas lookup that would raise, an
orchestrator branch that returns None) are modelled with Option.
-/

/-- One ledger row, as produced by the transaction reader: a transaction
date, a scheme name, a unit count and a gross amount. -/
structure Transaction where
  date : Nat
  scheme : String
  units : ℚ
  grossAmount : ℚ
deriving DecidableEq

/-- One NAV observation: a date and the net asset value on that date.
This models one row of the `nav_data` frame built by `fetch_nav_data`. -/
structure PricePoint where
  date : Nat
  nav : ℚ
deriving DecidableEq

/-- Insertion of a price point into a date-sorted list, keeping earlier
elements first among equal dates.  Models the sort key of
`nav_data.sort_values('date')`. -/
def insertNav (p : PricePoint) : List PricePoint → List PricePoint
  | [] => [p]
  | q :: qs => if p.date ≤ q.date then p :: q :: qs else q :: insertNav p qs

/-- Stable sort of a price series ascending by date, as performed by
`sort_values('date')` before the as-of merge. -/
def sortNavs (l : List PricePoint) : List PricePoint :=
  l.foldr insertNav []

/-- Insertion of a transaction into a date-sorted list. -/
def insertTx (t : Transaction) : List Transaction → List Transaction
  | [] => [t]
  | u :: us => if t.date ≤ u.date then t :: u :: us else u :: insertTx t us

/-- Stable sort of transactions ascending by date, as performed by
`transactions.sort_values('Transaction Date')`. -/
def sortTxs (l : List Transaction) : List Transaction :=
  l.foldr insertTx []

/-- Forward as-of lookup on a date-sorted price series: the first point
whose date is at or after the query date, if any.  This is the match
performed per left row by `pd.merge_asof(..., direction='forward')`. -/
def asofForward (prices : List PricePoint) (d : Nat) : Option PricePoint :=
  prices.find? (fun p => decide (d ≤ p.date))

/-- One output row of `calculate_portfolio_value`: the (unmodified) left
transaction, the forward-matched price point (`none` models the NaN
right-hand columns of an unmatched left row), the broadcast current NAV,
and the computed columns.  The three counterfactual columns exist only
when `is_potential` is set; `none` also models the NaN produced when an
unmatched row's NaN nav enters `Gross Amount / nav`. -/
structure ValuationRow where
  tx : Transaction
  matched : Option PricePoint
  currentNav : ℚ
  currentValue : ℚ
  originalUnits : Option ℚ
  unitsDifference : Option ℚ
  valueDifference : Option ℚ
deriving DecidableEq

/-- Current NAV used by the valuation: `nav_data.iloc[-1]['nav']`, the
nav of the last row of the series exactly as it was passed in (the
series is not re-sorted for this read). -/
def lastNav (nav_data : List PricePoint) : ℚ :=
  (nav_data.getLast?.getD ⟨0, 0⟩).nav

/-- Column assignments applied to one merged row: the broadcast
`Current NAV`, `Current Value = Units * current_nav`, and — only when
`is_potential` is set — `Original Units = Gross Amount / nav`,
`Units Difference = Units - Original Units` and
`Value Difference = Current Value - Gross Amount`.  The matched point
being `none` (a NaN nav) propagates into the two unit columns exactly as
NaN does in the frame. -/
def mkRow (is_potential : Bool) (current_nav : ℚ)
    (tm : Transaction × Option PricePoint) : ValuationRow :=
  { tx := tm.1
    matched := tm.2
    currentNav := current_nav
    currentValue := tm.1.units * current_nav
    originalUnits :=
      if is_potential then tm.2.map (fun p => tm.1.grossAmount / p.nav)
      else none
    unitsDifference :=
      if is_potential then
        tm.2.map (fun p => tm.1.units - tm.1.grossAmount / p.nav)
      else none
    valueDifference :=
      if is_potential then some (tm.1.units * current_nav - tm.1.grossAmount)
      else none }

/-- Embedding of `calculate_portfolio_value(transactions, nav_data,
is_potential)`.  Empty input returns `(0, [])`; otherwise the
transactions are date-sorted and left-joined to the date-sorted series
by a forward as-of match, every left row is kept, the columns of `mkRow`
are added, and the total is the sum of `Current Value` over all rows. -/
def calculate_portfolio_value (transactions : List Transaction)
    (nav_data : List PricePoint) (is_potential : Bool) :
    ℚ × List ValuationRow :=
  if transactions.isEmpty || nav_data.isEmpty then (0, [])
  else
    let merged := (sortTxs transactions).map
      (fun t => (t, asofForward (sortNavs nav_data) t.date))
    if merged.isEmpty then (0, [])
    else
      let rows := merged.map (mkRow is_potential (lastNav nav_data))
      ((rows.map (fun r => r.currentValue)).sum, rows)

/-- Character class kept by the fuzzy preprocessor: letters, digits and
underscore survive; every other character is turned into a space. -/
def keptChar (c : Char) : Bool :=
  c.isAlpha || c.isDigit || c = '_'

/-- Preprocessing applied by the token-sort scorer to each compared
string: non-alphanumeric characters become spaces and letters are
lowercased. -/
def full_process (s : String) : List Char :=
  s.data.map (fun c => if keptChar c then c.toLower else ' ')

/-- Accumulator-based splitting of a character list into maximal
space-free words; leading, trailing and repeated spaces yield no empty
words. -/
def splitWordsAux : List Char → List Char → List (List Char)
  | [], acc => if acc.isEmpty then [] else [acc.reverse]
  | c :: cs, acc =>
      if c = ' ' then
        if acc.isEmpty then splitWordsAux cs []
        else acc.reverse :: splitWordsAux cs []
      else splitWordsAux cs (c :: acc)

/-- Words of a character list, split on spaces. -/
def splitWords (cs : List Char) : List (List Char) :=
  splitWordsAux cs []

/-- Token list of a string under the fuzzy preprocessor: lowercase
alphanumeric words. -/
def tokensOf (s : String) : List (List Char) :=
  splitWords (full_process s)

/-- Boolean lexicographic order on character lists, by the character
order; used to sort tokens. -/
def lexLe : List Char → List Char → Bool
  | [], _ => true
  | _ :: _, [] => false
  | a :: as, b :: bs => if a < b then true else if b < a then false else lexLe as bs

/-- Propositional form of `lexLe`, the relation the token sort uses. -/
def tokenLe (a b : List Char) : Prop :=
  lexLe a b = true

instance : DecidableRel tokenLe :=
  fun a b => inferInstanceAs (Decidable (lexLe a b = true))

/-- Length of a longest common subsequence of two character lists,
computed by the standard dynamic-programming row recurrence.  The
auxiliary function produces the tail of the next row from the previous
row's tail, the diagonal entry and the entry just computed. -/
def lcsNextAux (x : Char) : List Char → List Nat → Nat → Nat → List Nat
  | y :: ys, up :: rest, diag, left =>
      let cur := if x = y then diag + 1 else max up left
      cur :: lcsNextAux x ys rest up cur
  | _, _, _, _ => []

/-- Production of the next DP row for `lcs` from the previous one. -/
def lcsRowStep (ys : List Char) (prev : List Nat) (x : Char) : List Nat :=
  match prev with
  | [] => []
  | p0 :: ptail => 0 :: lcsNextAux x ys ptail p0 0

/-- Longest-common-subsequence length of two character lists. -/
def lcs (xs ys : List Char) : Nat :=
  ((xs.foldl (lcsRowStep ys) (List.replicate (ys.length + 1) 0)).getLast?).getD 0

/-- Sequence-similarity score in [0,100] between two character lists:
twice the common-subsequence length over the total length, scaled to
100.  This models the `ratio` kernel the token-sort scorer applies to
the two preprocessed, token-sorted strings (two equal strings score
exactly 100; the sub-percent rounding direction is immaterial to the
verified properties). -/
def simScore (a b : List Char) : Nat :=
  let total := a.length + b.length
  if total = 0 then 100 else 200 * lcs a b / total

/-- Canonical form a string is reduced to by the token-sort scorer:
preprocess, split into tokens, sort the tokens, join with single
spaces. -/
def processAndSort (s : String) : List Char :=
  List.intercalate [' '] (List.insertionSort tokenLe (tokensOf s))

/-- Embedding of `fuzz.token_sort_ratio`: both strings are preprocessed,
their tokens sorted independently and rejoined, and the joined forms
compared by the sequence similarity. -/
def token_sort_similarity (s1 s2 : String) : Nat :=
  simScore (processAndSort s1) (processAndSort s2)

/-- Embedding of `process.extractOne(query, choices, scorer)`: the
choice with the highest score, together with its score, keeping the
earliest choice among ties; `none` on an empty choice list. -/
def extractOne (query : String) (choices : List String) : Option (String × Nat) :=
  choices.foldl (fun best c =>
    let sc := token_sort_similarity query c
    match best with
    | none => some (c, sc)
    | some q => if sc > q.2 then some (c, sc) else best) none

/-- Embedding of `fuzzy_match_scheme(scheme_name, transactions_schemes,
threshold)`: the best-scoring candidate when its score reaches the
threshold, otherwise `None`. -/
def fuzzy_match_scheme (scheme_name : String) (transactions_schemes : List String)
    (threshold : Nat) : Option String :=
  match extractOne scheme_name transactions_schemes with
  | some bm => if threshold ≤ bm.2 then some bm.1 else none
  | none => none

/-- Distinct scheme names of the ledger in first-appearance order, as
`transactions['Scheme'].unique()` yields them. -/
def uniqueSchemes (ts : List Transaction) : List String :=
  ts.foldl (fun acc t => if t.scheme ∈ acc then acc else acc ++ [t.scheme]) []

/-- Slice-then-first lookup used by the counterfactual unit
recomputation, `potential_navs.loc[row['Transaction Date']:].iloc[0]` on
the date-indexed series: all points dated at or after the transaction
date, then the first of them.  `none` models the out-of-range fault the
`iloc[0]` raises when the slice is empty. -/
def locFrom (navs : List PricePoint) (d : Nat) : Option PricePoint :=
  (navs.filter (fun p => decide (d ≤ p.date))).head?

/-- Per-row counterfactual unit recomputation of the orchestrator:
`Gross Amount` divided by the first alternative NAV at or after the
transaction date; `none` when no such NAV exists (the raised per-row
fault). -/
def recompute_units (navs : List PricePoint) (t : Transaction) : Option ℚ :=
  (locFrom navs t.date).map (fun p => t.grossAmount / p.nav)

/-- Counterfactual transaction set built by the orchestrator: every
filtered transaction with its units replaced by the recomputed quantity.
A single row without a forward NAV aborts the whole construction, as the
uncaught per-row fault does. -/
def counterfactualTransactions (navs : List PricePoint) :
    List Transaction → Option (List Transaction)
  | [] => some []
  | t :: ts =>
    match recompute_units navs t with
    | none => none
    | some u =>
      (counterfactualTransactions navs ts).map
        (fun rest => { t with units := u } :: rest)

/-- Summary record assembled by `compare_portfolios`. -/
structure Comparison where
  inputSchemeAPI : String
  inputSchemeMatched : String
  potentialScheme : String
  inputPortfolioValue : ℚ
  potentialPortfolioValue : ℚ
  difference : ℚ
deriving DecidableEq

/-- Embedding of `compare_portfolios` downstream of the two price-feed
retrievals: the two fetched series arrive date-sorted together with
their scheme names.  The held scheme name is fuzzy-matched against the
ledger's distinct schemes (threshold 70); the ledger is filtered to the
matched scheme; the held position is valued; the counterfactual units
are recomputed per row against the alternative series; the
counterfactual position is valued with the diagnostic columns; and the
summary with `difference = potential − input` is returned with both
detailed row sets.  `none` models every aborted path: no fuzzy match, no
transaction for the matched scheme, or a row whose recomputation
faults. -/
def compare_portfolios (transactions : List Transaction)
    (my_nav_data : List PricePoint) (my_scheme_name : String)
    (potential_nav_data : List PricePoint) (potential_scheme_name : String) :
    Option (Comparison × List ValuationRow × List ValuationRow) :=
  match fuzzy_match_scheme my_scheme_name (uniqueSchemes transactions) 70 with
  | none => none
  | some matched_scheme =>
    let input_transactions := transactions.filter (fun t => t.scheme = matched_scheme)
    if input_transactions.isEmpty then none
    else
      let myres := calculate_portfolio_value input_transactions my_nav_data false
      match counterfactualTransactions potential_nav_data input_transactions with
      | none => none
      | some transactions_potential =>
        let potres := calculate_portfolio_value transactions_potential potential_nav_data true
        some ({ inputSchemeAPI := my_scheme_name
                inputSchemeMatched := matched_scheme
                potentialScheme := potential_scheme_name
                inputPortfolioValue := myres.1
                potentialPortfolioValue := potres.1
                difference := potres.1 - myres.1 }, myres.2, potres.2)

theorem insertNav_perm (p : PricePoint) (l : List PricePoint) :
    (insertNav p l).Perm (p :: l) := by
  induction l with
  | nil => simp [insertNav]
  | cons q qs ih =>
      by_cases h : p.date ≤ q.date
      · simp [insertNav, h]
      · simp only [insertNav, if_neg h]
        exact (ih.cons q).trans (List.Perm.swap p q qs)

theorem sortNavs_perm (l : List PricePoint) : (sortNavs l).Perm l := by
  induction l with
  | nil => simp [sortNavs]
  | cons a l ih => exact (insertNav_perm a (sortNavs l)).trans (ih.cons a)

theorem insertTx_perm (t : Transaction) (l : List Transaction) :
    (insertTx t l).Perm (t :: l) := by
  induction l with
  | nil => simp [insertTx]
  | cons q qs ih =>
      by_cases h : t.date ≤ q.date
      · simp [insertTx, h]
      · simp only [insertTx, if_neg h]
        exact (ih.cons q).trans (List.Perm.swap t q qs)

theorem sortTxs_perm (l : List Transaction) : (sortTxs l).Perm l := by
  induction l with
  | nil => simp [sortTxs]
  | cons a l ih => exact (insertTx_perm a (sortTxs l)).trans (ih.cons a)

theorem insertNav_pairwise (p : PricePoint) {l : List PricePoint}
    (h : l.Pairwise (fun a b => a.date ≤ b.date)) :
    (insertNav p l).Pairwise (fun a b => a.date ≤ b.date) := by
  induction l with
  | nil => simp [insertNav]
  | cons q qs ih =>
      rcases List.pairwise_cons.mp h with ⟨hq, hqs⟩
      by_cases hpq : p.date ≤ q.date
      · simp only [insertNav, if_pos hpq]
        refine List.pairwise_cons.mpr ⟨?_, h⟩
        intro x hx
        rcases List.mem_cons.mp hx with rfl | hx
        · exact hpq
        · exact le_trans hpq (hq x hx)
      · simp only [insertNav, if_neg hpq]
        refine List.pairwise_cons.mpr ⟨?_, ih hqs⟩
        intro x hx
        rcases List.mem_cons.mp ((insertNav_perm p qs).mem_iff.mp hx) with rfl | hx
        · exact le_of_lt (lt_of_not_le hpq)
        · exact hq x hx

theorem sortNavs_pairwise (l : List PricePoint) :
    (sortNavs l).Pairwise (fun a b => a.date ≤ b.date) := by
  induction l with
  | nil => simp [sortNavs]
  | cons a l ih => exact insertNav_pairwise a ih

theorem sortNavs_eq_self {l : List PricePoint}
    (h : l.Pairwise (fun a b => a.date ≤ b.date)) : sortNavs l = l := by
  induction l with
  | nil => rfl
  | cons a l ih =>
      rcases List.pairwise_cons.mp h with ⟨ha, hl⟩
      show insertNav a (sortNavs l) = a :: l
      rw [ih hl]
      cases l with
      | nil => rfl
      | cons b bs => simp [insertNav, ha b (by simp)]

theorem head?_filter_eq_find? (p : α → Bool) (l : List α) :
    (l.filter p).head? = l.find? p := by
  induction l with
  | nil => rfl
  | cons a l ih =>
      by_cases h : p a = true
      · simp [List.filter_cons, List.find?_cons, h]
      · simp [List.filter_cons, List.find?_cons, h, ih]

theorem locFrom_eq_asofForward (navs : List PricePoint) (d : Nat) :
    locFrom navs d = asofForward navs d :=
  head?_filter_eq_find? _ navs

theorem asofForward_mem_ge {navs : List PricePoint} {d : Nat} {p : PricePoint}
    (hp : asofForward navs d = some p) : p ∈ navs ∧ d ≤ p.date := by
  refine ⟨List.mem_of_find?_eq_some hp, ?_⟩
  have := List.find?_some hp
  exact of_decide_eq_true this

theorem asofForward_earliest {navs : List PricePoint} {d : Nat} {p : PricePoint}
    (hs : navs.Pairwise (fun a b => a.date ≤ b.date))
    (hp : asofForward navs d = some p) :
    ∀ q ∈ navs, d ≤ q.date → p.date ≤ q.date := by
  induction navs with
  | nil => simp [asofForward] at hp
  | cons a l ih =>
      rcases List.pairwise_cons.mp hs with ⟨ha, hl⟩
      by_cases h : d ≤ a.date
      · have : p = a := by
          have := hp
          simp [asofForward, List.find?_cons, decide_eq_true h] at this
          exact this.symm
        subst this
        intro q hq _
        rcases List.mem_cons.mp hq with rfl | hq
        · exact le_refl _
        · exact ha q hq
      · have hp' : asofForward l d = some p := by
          have := hp
          simpa [asofForward, List.find?_cons, decide_eq_false h] using this
        intro q hq hdq
        rcases List.mem_cons.mp hq with rfl | hq
        · exact absurd hdq h
        · exact ih hl hp' q hq hdq

theorem asofForward_eq_none_iff {navs : List PricePoint} {d : Nat} :
    asofForward navs d = none ↔ ∀ q ∈ navs, q.date < d := by
  simp [asofForward, List.find?_eq_none, Nat.not_le]

theorem calculate_rows {ts : List Transaction} {navs : List PricePoint}
    (hts : ts ≠ []) (hnavs : navs ≠ []) (b : Bool) :
    (calculate_portfolio_value ts navs b).2 =
      (sortTxs ts).map
        (fun t => mkRow b (lastNav navs) (t, asofForward (sortNavs navs) t.date)) := by
  have h1 : ts.isEmpty = false := by simpa [List.isEmpty_iff] using hts
  have h2 : navs.isEmpty = false := by simpa [List.isEmpty_iff] using hnavs
  have h3 : sortTxs ts ≠ [] := by
    intro h
    have := (sortTxs_perm ts).length_eq
    rw [h] at this
    exact hts (List.length_eq_zero.mp this.symm)
  simp [calculate_portfolio_value, h1, h2, List.isEmpty_iff, h3]

theorem calculate_total {ts : List Transaction} {navs : List PricePoint}
    (hts : ts ≠ []) (hnavs : navs ≠ []) (b : Bool) :
    (calculate_portfolio_value ts navs b).1 =
      (((calculate_portfolio_value ts navs b).2).map (fun r => r.currentValue)).sum := by
  have h1 : ts.isEmpty = false := by simpa [List.isEmpty_iff] using hts
  have h2 : navs.isEmpty = false := by simpa [List.isEmpty_iff] using hnavs
  have h3 : sortTxs ts ≠ [] := by
    intro h
    have := (sortTxs_perm ts).length_eq
    rw [h] at this
    exact hts (List.length_eq_zero.mp this.symm)
  simp [calculate_portfolio_value, h1, h2, List.isEmpty_iff, h3]

theorem lexLe_total (a b : List Char) : lexLe a b = true ∨ lexLe b a = true := by
  induction a generalizing b with
  | nil => left; rfl
  | cons x xs ih =>
      cases b with
      | nil => right; rfl
      | cons y ys =>
          rcases lt_trichotomy x y with h | h | h
          · left; simp [lexLe, h]
          · subst h
            have := ih ys
            simpa [lexLe, lt_irrefl] using this
          · right; simp [lexLe, h]

theorem lexLe_antisymm : ∀ {a b : List Char},
    lexLe a b = true → lexLe b a = true → a = b := by
  intro a
  induction a with
  | nil =>
      intro b h1 h2
      cases b with
      | nil => rfl
      | cons y ys => simp [lexLe] at h2
  | cons x xs ih =>
      intro b h1 h2
      cases b with
      | nil => simp [lexLe] at h1
      | cons y ys =>
          rcases lt_trichotomy x y with h | h | h
          · exfalso; simp [lexLe, h, lt_asymm h] at h2
          · subst h
            have h1' : lexLe xs ys = true := by simpa [lexLe, lt_irrefl] using h1
            have h2' : lexLe ys xs = true := by simpa [lexLe, lt_irrefl] using h2
            rw [ih h1' h2']
          · exfalso; simp [lexLe, h, lt_asymm h] at h1

theorem lexLe_trans : ∀ {a b c : List Char},
    lexLe a b = true → lexLe b c = true → lexLe a c = true := by
  intro a
  induction a with
  | nil => intro b c h1 h2; rfl
  | cons x xs ih =>
      intro b c h1 h2
      cases b with
      | nil => simp [lexLe] at h1
      | cons y ys =>
          cases c with
          | nil => simp [lexLe] at h2
          | cons z zs =>
              rcases lt_trichotomy x y with hxy | hxy | hxy
              · rcases lt_trichotomy y z with hyz | hyz | hyz
                · simp [lexLe, lt_trans hxy hyz]
                · subst hyz; simp [lexLe, hxy]
                · exfalso; simp [lexLe, hyz, lt_asymm hyz] at h2
              · subst hxy
                rcases lt_trichotomy x z with hxz | hxz | hxz
                · simp [lexLe, hxz]
                · subst hxz
                  have h1' : lexLe xs ys = true := by
                    simpa [lexLe, lt_irrefl] using h1
                  have h2' : lexLe ys zs = true := by
                    simpa [lexLe, lt_irrefl] using h2
                  simp [lexLe, lt_irrefl, ih h1' h2']
                · exfalso; simp [lexLe, hxz, lt_asymm hxz] at h2
              · exfalso; simp [lexLe, hxy, lt_asymm hxy] at h1

instance : IsTotal (List Char) tokenLe :=
  ⟨lexLe_total⟩

instance : IsTrans (List Char) tokenLe :=
  ⟨fun _ _ _ h1 h2 => lexLe_trans h1 h2⟩

instance : IsAntisymm (List Char) tokenLe :=
  ⟨fun _ _ h1 h2 => lexLe_antisymm h1 h2⟩

theorem processAndSort_eq_of_perm {s s' : String}
    (h : (tokensOf s').Perm (tokensOf s)) :
    processAndSort s' = processAndSort s := by
  unfold processAndSort
  congr 1
  exact List.eq_of_perm_of_sorted
    (((List.perm_insertionSort tokenLe (tokensOf s')).trans h).trans
      (List.perm_insertionSort tokenLe (tokensOf s)).symm)
    (List.sorted_insertionSort tokenLe _)
    (List.sorted_insertionSort tokenLe _)

theorem extractOne_foldl {q : String} :
    ∀ (cs : List String) (acc : Option (String × Nat)) {bm : String × Nat},
      cs.foldl (fun best c =>
        let sc := token_sort_similarity q c
        match best with
        | none => some (c, sc)
        | some p => if sc > p.2 then some (c, sc) else best) acc = some bm →
      acc = some bm ∨ (bm.1 ∈ cs ∧ bm.2 = token_sort_similarity q bm.1) := by
  intro cs
  induction cs with
  | nil => intro acc bm h; left; exact h
  | cons c cs ih =>
      intro acc bm h
      rcases ih _ h with h1 | h1
      · cases acc with
        | none =>
            right
            have : bm = (c, token_sort_similarity q c) := by
              simpa using h1.symm
            subst this
            exact ⟨List.mem_cons_self c cs, rfl⟩
        | some p =>
            by_cases hgt : token_sort_similarity q c > p.2
            · right
              have : bm = (c, token_sort_similarity q c) := by
                simp only [if_pos hgt] at h1
                simpa using h1.symm
              subst this
              exact ⟨List.mem_cons_self c cs, rfl⟩
            · left
              simpa [if_neg hgt] using h1
      · right
        exact ⟨List.mem_cons_of_mem c h1.1, h1.2⟩

theorem extractOne_mem_score {q : String} {cs : List String} {bm : String × Nat}
    (h : extractOne q cs = some bm) :
    bm.1 ∈ cs ∧ bm.2 = token_sort_similarity q bm.1 := by
  unfold extractOne at h
  rcases extractOne_foldl cs none h with h1 | h1
  · simp at h1
  · exact h1

theorem fuzzy_match_below_threshold {target : String} {cands : List String}
    {thr : Nat} (h : ∀ c ∈ cands, token_sort_similarity target c < thr) :
    fuzzy_match_scheme target cands thr = none := by
  unfold fuzzy_match_scheme
  cases hE : extractOne target cands with
  | none => rfl
  | some bm =>
      obtain ⟨hmem, hsc⟩ := extractOne_mem_score hE
      have hlt : bm.2 < thr := by rw [hsc]; exact h bm.1 hmem
      simp [Nat.not_le.mpr hlt]

theorem calculate_empty {ts : List Transaction} {navs : List PricePoint}
    (h : ts = [] ∨ navs = []) (b : Bool) :
    calculate_portfolio_value ts navs b = (0, []) := by
  rcases h with h | h <;> subst h <;> simp [calculate_portfolio_value]

theorem mem_calculate_rows {ts : List Transaction} {navs : List PricePoint}
    {b : Bool} {row : ValuationRow}
    (h : row ∈ (calculate_portfolio_value ts navs b).2) :
    ∃ t ∈ ts, row = mkRow b (lastNav navs) (t, asofForward (sortNavs navs) t.date) := by
  by_cases hts : ts = []
  · rw [calculate_empty (Or.inl hts) b] at h
    simp at h
  by_cases hnavs : navs = []
  · rw [calculate_empty (Or.inr hnavs) b] at h
    simp at h
  rw [calculate_rows hts hnavs b] at h
  obtain ⟨t, ht, hrow⟩ := List.mem_map.mp h
  exact ⟨t, (sortTxs_perm ts).mem_iff.mp ht, hrow.symm⟩

theorem pairwise_le_date_getLast :
    ∀ {l : List PricePoint}, l.Pairwise (fun a b => a.date ≤ b.date) →
      ∀ (hne : l ≠ []) (p : PricePoint), p ∈ l → p.date ≤ (l.getLast hne).date := by
  intro l
  induction l with
  | nil => intro _ hne; exact absurd rfl hne
  | cons a l ih =>
      intro h hne p hp
      rcases List.pairwise_cons.mp h with ⟨ha, hl⟩
      cases l with
      | nil =>
          have : p = a := by simpa using hp
          subst this
          simp [List.getLast]
      | cons b bs =>
          rw [List.getLast_cons (by simp)]
          rcases List.mem_cons.mp hp with rfl | hp
          · exact ha _ (List.getLast_mem (by simp))
          · exact ih hl (by simp) p hp

theorem counterfactual_mem {navs : List PricePoint} :
    ∀ {l l' : List Transaction}, counterfactualTransactions navs l = some l' →
      ∀ u ∈ l', ∃ t ∈ l, ∃ p, locFrom navs t.date = some p ∧
        u = { t with units := t.grossAmount / p.nav } := by
  intro l
  induction l with
  | nil =>
      intro l' h u hu
      simp [counterfactualTransactions] at h
      subst h
      simp at hu
  | cons t ts ih =>
      intro l' h u hu
      unfold counterfactualTransactions at h
      cases hr : recompute_units navs t with
      | none => rw [hr] at h; simp at h
      | some v =>
          rw [hr] at h
          cases hc : counterfactualTransactions navs ts with
          | none => rw [hc] at h; simp at h
          | some rest =>
              rw [hc] at h
              have hl' : ({ t with units := v } :: rest) = l' := by simpa using h
              subst hl'
              rcases List.mem_cons.mp hu with rfl | hu
              · unfold recompute_units at hr
                cases hl : locFrom navs t.date with
                | none => rw [hl] at hr; simp at hr
                | some p =>
                    rw [hl] at hr
                    have hv : t.grossAmount / p.nav = v := by simpa using hr
                    exact ⟨t, List.mem_cons_self t ts, p, hl, by rw [← hv]⟩
              · obtain ⟨t', ht', p, hp, hu'⟩ := ih hc u hu
                exact ⟨t', List.mem_cons_of_mem _ ht', p, hp, hu'⟩

theorem counterfactual_none {navs : List PricePoint} {t : Transaction}
    (hr : recompute_units navs t = none) :
    ∀ ts : List Transaction, t ∈ ts → counterfactualTransactions navs ts = none := by
  intro ts
  induction ts with
  | nil => intro h; simp at h
  | cons u us ih =>
      intro h
      rcases List.mem_cons.mp h with rfl | h
      · unfold counterfactualTransactions
        rw [hr]
      · unfold counterfactualTransactions
        cases recompute_units navs u with
        | none => rfl
        | some v => rw [ih h]; rfl

/-- C7: for every price series (including an empty one) and every
transaction set, if the transaction set is empty or the price series has
no points, `calculate_portfolio_value` returns `(0, [])` as a normal,
non-error outcome. -/
theorem valuePortfolio_empty_input (ts : List Transaction)
    (navs : List PricePoint) (b : Bool) (h : ts = [] ∨ navs = []) :
    calculate_portfolio_value ts navs b = (0, []) :=
  calculate_empty h b

theorem valuePortfolio_empty_input_witness :
    calculate_portfolio_value [] [⟨1, 10⟩] false = (0, [])
    ∧ calculate_portfolio_value [] [] true = (0, [])
    ∧ calculate_portfolio_value [⟨1, "A", 5, 50⟩] [] false = (0, []) :=
  ⟨valuePortfolio_empty_input [] [⟨1, 10⟩] false (Or.inl rfl),
   valuePortfolio_empty_input [] [] true (Or.inl rfl),
   valuePortfolio_empty_input [⟨1, "A", 5, 50⟩] [] false (Or.inr rfl)⟩

/-- C8: `compare_portfolios` is deterministic — it is a pure function of
the transaction set and the two retrieved price series with their scheme
names, so two runs on identical inputs produce identical
`ComparisonResult` values (summary record plus both detailed row
sets). -/
theorem compare_deterministic (ts : List Transaction) (mn : List PricePoint)
    (ms : String) (pn : List PricePoint) (ps : String) :
    compare_portfolios ts mn ms pn ps = compare_portfolios ts mn ms pn ps :=
  rfl

/-- C4: on a date-sorted price series, the forward as-of join matches a
query date to the earliest point with date at or after it, never to a
point dated strictly before it, and finds no match for a date beyond the
last point; every row of the valuation output carries exactly that match
for its transaction date.  In particular a transaction dated 2023-01-10
(day 10) against the series [(2023-01-09, 90), (2023-02-01, 120)] (days
9 and 32) matches the 120 point and has currentValue 10 × 120 = 1200. -/
theorem asofForward_match (navs : List PricePoint) (d : Nat)
    (hsorted : navs.Pairwise (fun a b => a.date ≤ b.date)) :
    (∀ p, asofForward navs d = some p →
        d ≤ p.date ∧ ∀ q ∈ navs, d ≤ q.date → p.date ≤ q.date)
    ∧ ((∀ q ∈ navs, q.date < d) → asofForward navs d = none)
    ∧ (∀ (ts : List Transaction) (b : Bool) (row : ValuationRow),
        row ∈ (calculate_portfolio_value ts navs b).2 →
          row.matched = asofForward navs row.tx.date)
    ∧ ((calculate_portfolio_value [⟨10, "Fund A", 10, 1000⟩]
          [⟨9, 90⟩, ⟨32, 120⟩] false).2.map
        (fun r => (r.matched, r.currentValue))
          = [(some ⟨32, 120⟩, (1200 : ℚ))]) := by
  refine ⟨?_, ?_, ?_, ?_⟩
  · intro p hp
    exact ⟨(asofForward_mem_ge hp).2, asofForward_earliest hsorted hp⟩
  · intro h
    exact asofForward_eq_none_iff.mpr h
  · intro ts b row hrow
    obtain ⟨t, ht, hr⟩ := mem_calculate_rows hrow
    subst hr
    simp [mkRow, sortNavs_eq_self hsorted]
  · norm_num [calculate_portfolio_value, sortTxs, insertTx, sortNavs, insertNav,
      asofForward, lastNav, mkRow, List.find?]

theorem asofForward_match_witness :
    (∀ p, asofForward [⟨9, 90⟩, ⟨32, 120⟩] 10 = some p →
        10 ≤ p.date ∧ ∀ q ∈ [(⟨9, 90⟩ : PricePoint), ⟨32, 120⟩],
          10 ≤ q.date → p.date ≤ q.date)
    ∧ ((∀ q ∈ [(⟨9, 90⟩ : PricePoint), ⟨32, 120⟩], q.date < 10) →
        asofForward [⟨9, 90⟩, ⟨32, 120⟩] 10 = none)
    ∧ (∀ (ts : List Transaction) (b : Bool) (row : ValuationRow),
        row ∈ (calculate_portfolio_value ts [⟨9, 90⟩, ⟨32, 120⟩] b).2 →
          row.matched = asofForward [⟨9, 90⟩, ⟨32, 120⟩] row.tx.date)
    ∧ ((calculate_portfolio_value [⟨10, "Fund A", 10, 1000⟩]
          [⟨9, 90⟩, ⟨32, 120⟩] false).2.map
        (fun r => (r.matched, r.currentValue))
          = [(some ⟨32, 120⟩, (1200 : ℚ))]) :=
  asofForward_match [⟨9, 90⟩, ⟨32, 120⟩] 10 (by decide)

/-- C3 counterexample: on a price series that is not sorted ascending,
the current price `calculate_portfolio_value` uses is the nav of the
last-position point, not of the maximum-date point.  The series
[(32, 120), (9, 90)] has its maximum-date point (32, 120), yet the
valuation of a 10-unit transaction uses 90 (currentValue 900), not 120
(which would give 1200) — refuting the claim for arbitrary point
order. -/
theorem latest_unsorted_counterexample :
    ((⟨32, 120⟩ : PricePoint) ∈ [(⟨32, 120⟩ : PricePoint), ⟨9, 90⟩]
      ∧ ∀ p ∈ [(⟨32, 120⟩ : PricePoint), ⟨9, 90⟩], p.date ≤ 32)
    ∧ ((calculate_portfolio_value [⟨10, "A", 10, 1000⟩]
          [⟨32, 120⟩, ⟨9, 90⟩] false).2.map
        (fun r => (r.currentNav, r.currentValue)) = [((90 : ℚ), 900)])
    ∧ (90 : ℚ) ≠ 120 ∧ (900 : ℚ) ≠ 1200 := by
  refine ⟨⟨by decide, by decide⟩, ?_, by norm_num, by norm_num⟩
  norm_num [calculate_portfolio_value, sortTxs, insertTx, sortNavs, insertNav,
    asofForward, lastNav, mkRow, List.find?]

/-- C3 (amended): on a price series sorted ascending by date — the form
`fetch_nav_data` always delivers — the current price used by
`calculate_portfolio_value` is the nav of the last point, which is a
maximum-date point of the series, and every row's currentValue equals
its units times that price.  For arbitrary point order the code instead
uses the last-position nav (see the counterexample). -/
theorem latest_price_of_sorted (navs : List PricePoint)
    (hsorted : navs.Pairwise (fun a b => a.date ≤ b.date)) (hne : navs ≠ []) :
    (∃ pl ∈ navs, lastNav navs = pl.nav ∧ ∀ p ∈ navs, p.date ≤ pl.date)
    ∧ ∀ (ts : List Transaction) (b : Bool) (row : ValuationRow),
        row ∈ (calculate_portfolio_value ts navs b).2 →
          row.currentNav = lastNav navs
          ∧ row.currentValue = row.tx.units * lastNav navs := by
  constructor
  · refine ⟨navs.getLast hne, List.getLast_mem hne, ?_, ?_⟩
    · unfold lastNav
      rw [List.getLast?_eq_getLast navs hne]
      rfl
    · exact pairwise_le_date_getLast hsorted hne
  · intro ts b row hrow
    obtain ⟨t, ht, hr⟩ := mem_calculate_rows hrow
    subst hr
    simp [mkRow]

theorem latest_price_of_sorted_witness :
    (∃ pl ∈ [(⟨9, 90⟩ : PricePoint), ⟨32, 120⟩],
        lastNav [⟨9, 90⟩, ⟨32, 120⟩] = pl.nav
        ∧ ∀ p ∈ [(⟨9, 90⟩ : PricePoint), ⟨32, 120⟩], p.date ≤ pl.date)
    ∧ ∀ (ts : List Transaction) (b : Bool) (row : ValuationRow),
        row ∈ (calculate_portfolio_value ts [⟨9, 90⟩, ⟨32, 120⟩] b).2 →
          row.currentNav = lastNav [⟨9, 90⟩, ⟨32, 120⟩]
          ∧ row.currentValue = row.tx.units * lastNav [⟨9, 90⟩, ⟨32, 120⟩] :=
  latest_price_of_sorted [⟨9, 90⟩, ⟨32, 120⟩] (by decide) (by decide)

/-- C1 counterexample: a transaction dated after the last price point has
no forward match, yet it is kept in the result (as a row with no matched
point) and it contributes `units × currentNav` to the total.  With
transactions [(1, 5 units, 50), (2, 7 units, 70)] and the single price
point (1, 10), the transaction dated 2 is unmatched, the result still
has two rows, and the total is (5+7)×10 = 120, not the 50 the claim's
matched-rows-only sum would give. -/
theorem unmatched_total_counterexample :
    asofForward (sortNavs [⟨1, 10⟩]) 2 = none
    ∧ ((calculate_portfolio_value [⟨1, "A", 5, 50⟩, ⟨2, "A", 7, 70⟩]
          [⟨1, 10⟩] false).2.map (fun r => (r.tx.date, r.matched))
        = [(1, some ⟨1, 10⟩), (2, none)])
    ∧ (calculate_portfolio_value [⟨1, "A", 5, 50⟩, ⟨2, "A", 7, 70⟩]
        [⟨1, 10⟩] false).1 = 120
    ∧ (120 : ℚ) ≠ 50 := by
  refine ⟨by decide, ?_, ?_, by norm_num⟩
  · norm_num [calculate_portfolio_value, sortTxs, insertTx, sortNavs, insertNav,
      asofForward, lastNav, mkRow, List.find?]
  · norm_num [calculate_portfolio_value, sortTxs, insertTx, sortNavs, insertNav,
      asofForward, lastNav, mkRow, List.find?]

/-- C1 (amended): for non-empty transactions and a non-empty price
series, every transaction — matched or not — stays in the result, each
row's currentValue is `units × currentNav` (independent of the matched
price, so no NaN can reach the sum), and totalValue is the sum of
`units × currentNav` over ALL input transactions, unmatched ones
included. -/
theorem total_includes_unmatched (ts : List Transaction)
    (navs : List PricePoint) (b : Bool) (hts : ts ≠ []) (hnavs : navs ≠ []) :
    (calculate_portfolio_value ts navs b).1
      = (ts.map (fun t => t.units * lastNav navs)).sum
    ∧ ∀ row ∈ (calculate_portfolio_value ts navs b).2,
        row.currentValue = row.tx.units * lastNav navs := by
  constructor
  · rw [calculate_total hts hnavs b, calculate_rows hts hnavs b, List.map_map]
    have hcomp : ((fun r => r.currentValue) ∘ fun t =>
        mkRow b (lastNav navs) (t, asofForward (sortNavs navs) t.date))
        = fun t => t.units * lastNav navs := by
      funext t
      simp [mkRow]
    rw [hcomp]
    exact List.Perm.sum_eq ((sortTxs_perm ts).map _)
  · intro row hrow
    obtain ⟨t, ht, hr⟩ := mem_calculate_rows hrow
    subst hr
    simp [mkRow]

theorem total_includes_unmatched_witness :
    (calculate_portfolio_value [⟨1, "A", 5, 50⟩, ⟨2, "A", 7, 70⟩]
        [⟨1, 10⟩] false).1
      = ([⟨1, "A", 5, 50⟩, (⟨2, "A", 7, 70⟩ : Transaction)].map
          (fun t => t.units * lastNav [⟨1, 10⟩])).sum
    ∧ ∀ row ∈ (calculate_portfolio_value [⟨1, "A", 5, 50⟩, ⟨2, "A", 7, 70⟩]
        [⟨1, 10⟩] false).2,
        row.currentValue = row.tx.units * lastNav [⟨1, 10⟩] :=
  total_includes_unmatched [⟨1, "A", 5, 50⟩, ⟨2, "A", 7, 70⟩] [⟨1, 10⟩] false
    (by decide) (by decide)

/-- C9: for non-empty transactions and a non-empty price series, the
result of `calculate_portfolio_value` has exactly one row per input
transaction (the row transactions are a permutation of the input, so the
lengths agree), and a row's matched point is empty (the NaN columns)
exactly when no price point is dated at or after its transaction
date. -/
theorem rows_per_transaction (ts : List Transaction)
    (navs : List PricePoint) (b : Bool) (hts : ts ≠ []) (hnavs : navs ≠ []) :
    ((calculate_portfolio_value ts navs b).2.map (fun r => r.tx)).Perm ts
    ∧ (calculate_portfolio_value ts navs b).2.length = ts.length
    ∧ ∀ row ∈ (calculate_portfolio_value ts navs b).2,
        (row.matched = none ↔ ∀ p ∈ navs, p.date < row.tx.date) := by
  refine ⟨?_, ?_, ?_⟩
  · rw [calculate_rows hts hnavs b, List.map_map]
    have hcomp : ((fun r => r.tx) ∘ fun t =>
        mkRow b (lastNav navs) (t, asofForward (sortNavs navs) t.date))
        = id := by
      funext t
      simp [mkRow]
    rw [hcomp, List.map_id]
    exact sortTxs_perm ts
  · rw [calculate_rows hts hnavs b, List.length_map]
    exact (sortTxs_perm ts).length_eq
  · intro row hrow
    obtain ⟨t, ht, hr⟩ := mem_calculate_rows hrow
    subst hr
    simp only [mkRow]
    rw [asofForward_eq_none_iff]
    constructor
    · intro h p hp
      exact h p ((sortNavs_perm navs).mem_iff.mpr hp)
    · intro h p hp
      exact h p ((sortNavs_perm navs).mem_iff.mp hp)

theorem rows_per_transaction_witness :
    ((calculate_portfolio_value [⟨1, "A", 5, 50⟩, ⟨2, "A", 7, 70⟩]
        [⟨1, 10⟩] false).2.map (fun r => r.tx)).Perm
      [⟨1, "A", 5, 50⟩, ⟨2, "A", 7, 70⟩]
    ∧ (calculate_portfolio_value [⟨1, "A", 5, 50⟩, ⟨2, "A", 7, 70⟩]
        [⟨1, 10⟩] false).2.length
      = ([⟨1, "A", 5, 50⟩, (⟨2, "A", 7, 70⟩ : Transaction)] : List Transaction).length
    ∧ ∀ row ∈ (calculate_portfolio_value [⟨1, "A", 5, 50⟩, ⟨2, "A", 7, 70⟩]
        [⟨1, 10⟩] false).2,
        (row.matched = none ↔ ∀ p ∈ [(⟨1, 10⟩ : PricePoint)], p.date < row.tx.date) :=
  rows_per_transaction [⟨1, "A", 5, 50⟩, ⟨2, "A", 7, 70⟩] [⟨1, 10⟩] false
    (by decide) (by decide)

/-- C5: with the counterfactual flag set, every row with a matched price
point carries `originalUnits = grossAmount / matchedPrice.nav`,
`unitsDifference = units − originalUnits` and
`valueDifference = currentValue − grossAmount`, where the row's
transaction (units included) is one of the input transactions unchanged
— the engine does not recompute units.  In particular a row with
grossAmount 1000, matched forward price 50 and units 10 has
originalUnits 20 and unitsDifference −10. -/
theorem counterfactual_columns {ts : List Transaction}
    {navs : List PricePoint} {row : ValuationRow} {p : PricePoint}
    (hrow : row ∈ (calculate_portfolio_value ts navs true).2)
    (hm : row.matched = some p) :
    row.originalUnits = some (row.tx.grossAmount / p.nav)
    ∧ row.unitsDifference = some (row.tx.units - row.tx.grossAmount / p.nav)
    ∧ row.valueDifference = some (row.currentValue - row.tx.grossAmount)
    ∧ row.tx ∈ ts
    ∧ ((calculate_portfolio_value [⟨1, "A", 10, 1000⟩] [⟨1, 50⟩] true).2.map
        (fun r => (r.originalUnits, r.unitsDifference))
          = [(some 20, some (-10))]) := by
  obtain ⟨t, ht, hr⟩ := mem_calculate_rows hrow
  subst hr
  simp only [mkRow] at hm
  refine ⟨?_, ?_, ?_, ht, ?_⟩
  · simp [mkRow, hm]
  · simp [mkRow, hm]
  · simp [mkRow]
  · norm_num [calculate_portfolio_value, sortTxs, insertTx, sortNavs, insertNav,
      asofForward, lastNav, mkRow, List.find?]

theorem counterfactual_columns_witness :
    (⟨⟨1, "A", 10, 1000⟩, some ⟨1, 50⟩, 50, 500, some 20, some (-10),
        some (-500)⟩ : ValuationRow).originalUnits
      = some ((⟨⟨1, "A", 10, 1000⟩, some ⟨1, 50⟩, 50, 500, some 20, some (-10),
        some (-500)⟩ : ValuationRow).tx.grossAmount / (⟨1, 50⟩ : PricePoint).nav)
    ∧ (⟨⟨1, "A", 10, 1000⟩, some ⟨1, 50⟩, 50, 500, some 20, some (-10),
        some (-500)⟩ : ValuationRow).unitsDifference
      = some ((⟨⟨1, "A", 10, 1000⟩, some ⟨1, 50⟩, 50, 500, some 20, some (-10),
        some (-500)⟩ : ValuationRow).tx.units
          - (⟨⟨1, "A", 10, 1000⟩, some ⟨1, 50⟩, 50, 500, some 20, some (-10),
        some (-500)⟩ : ValuationRow).tx.grossAmount / (⟨1, 50⟩ : PricePoint).nav)
    ∧ (⟨⟨1, "A", 10, 1000⟩, some ⟨1, 50⟩, 50, 500, some 20, some (-10),
        some (-500)⟩ : ValuationRow).valueDifference
      = some ((⟨⟨1, "A", 10, 1000⟩, some ⟨1, 50⟩, 50, 500, some 20, some (-10),
        some (-500)⟩ : ValuationRow).currentValue
          - (⟨⟨1, "A", 10, 1000⟩, some ⟨1, 50⟩, 50, 500, some 20, some (-10),
        some (-500)⟩ : ValuationRow).tx.grossAmount)
    ∧ (⟨⟨1, "A", 10, 1000⟩, some ⟨1, 50⟩, 50, 500, some 20, some (-10),
        some (-500)⟩ : ValuationRow).tx ∈ [(⟨1, "A", 10, 1000⟩ : Transaction)]
    ∧ ((calculate_portfolio_value [⟨1, "A", 10, 1000⟩] [⟨1, 50⟩] true).2.map
        (fun r => (r.originalUnits, r.unitsDifference))
          = [(some 20, some (-10))]) :=
  @counterfactual_columns [⟨1, "A", 10, 1000⟩] [⟨1, 50⟩]
    ⟨⟨1, "A", 10, 1000⟩, some ⟨1, 50⟩, 50, 500, some 20, some (-10),
      some (-500)⟩ ⟨1, 50⟩
    (by norm_num [calculate_portfolio_value, sortTxs, insertTx, sortNavs,
      insertNav, asofForward, lastNav, mkRow, List.find?])
    rfl

/-- C6: the fuzzy scorer is token-order-insensitive — permuting the
tokens of either compared string leaves the score unchanged, and
"Growth Fund Direct" scores 100 against "Direct Growth Fund" — and
`fuzzy_match_scheme` returns none whenever every candidate (hence the
best one) scores strictly below the threshold, rather than returning a
weak guess. -/
theorem fuzzy_match_properties (s1 s1' s2 s2' : String)
    (h1 : (tokensOf s1').Perm (tokensOf s1))
    (h2 : (tokensOf s2').Perm (tokensOf s2))
    (target : String) (cands : List String) (thr : Nat)
    (hbelow : ∀ c ∈ cands, token_sort_similarity target c < thr) :
    token_sort_similarity s1' s2' = token_sort_similarity s1 s2
    ∧ token_sort_similarity "Growth Fund Direct" "Direct Growth Fund" = 100
    ∧ fuzzy_match_scheme target cands thr = none := by
  refine ⟨?_, by decide, fuzzy_match_below_threshold hbelow⟩
  unfold token_sort_similarity
  rw [processAndSort_eq_of_perm h1, processAndSort_eq_of_perm h2]

theorem fuzzy_match_properties_witness :
    token_sort_similarity "Direct Growth Fund" "Growth Direct Fund"
      = token_sort_similarity "Growth Fund Direct" "Fund Growth Direct"
    ∧ token_sort_similarity "Growth Fund Direct" "Direct Growth Fund" = 100
    ∧ fuzzy_match_scheme "Fund A-Direct Plan-Growth" ["Fund Z"] 70 = none :=
  fuzzy_match_properties "Growth Fund Direct" "Direct Growth Fund"
    "Fund Growth Direct" "Growth Direct Fund"
    (by decide) (by decide)
    "Fund A-Direct Plan-Growth" ["Fund Z"] 70
    (by decide)

/-- C2: a transaction dated after every point of the alternative series
has no forward price, and the orchestrator's per-row unit recomputation
fails for it — modelling the fault `.loc[date:].iloc[0]` raises — so it
is never coerced to zero units or to any other default; the failure
aborts the counterfactual construction and the whole comparison rather
than emitting a defaulted row. -/
theorem no_forward_price_error (navs : List PricePoint) (t : Transaction)
    (h : ∀ p ∈ navs, p.date < t.date) :
    recompute_units navs t = none
    ∧ (∀ u : ℚ, ¬ recompute_units navs t = some u)
    ∧ (∀ ts : List Transaction, t ∈ ts →
        counterfactualTransactions navs ts = none)
    ∧ (∀ (ts : List Transaction) (mn : List PricePoint) (ms ps m : String),
        fuzzy_match_scheme ms (uniqueSchemes ts) 70 = some m → t ∈ ts →
        t.scheme = m → compare_portfolios ts mn ms navs ps = none) := by
  have hloc : locFrom navs t.date = none := by
    rw [locFrom_eq_asofForward]
    exact asofForward_eq_none_iff.mpr h
  have hre : recompute_units navs t = none := by
    unfold recompute_units
    rw [hloc]
    rfl
  refine ⟨hre, ?_, counterfactual_none hre, ?_⟩
  · intro u hu
    rw [hre] at hu
    exact Option.noConfusion hu
  · intro ts mn ms ps m hf ht hsch
    have hmem : t ∈ ts.filter (fun u => u.scheme = m) := by
      rw [List.mem_filter]
      exact ⟨ht, by simp [hsch]⟩
    have hcf := counterfactual_none hre _ hmem
    simp [compare_portfolios, hf, hcf]

theorem no_forward_price_error_witness :
    recompute_units [⟨1, 5⟩] ⟨2, "Fund A", 3, 30⟩ = none
    ∧ (∀ u : ℚ, ¬ recompute_units [⟨1, 5⟩] ⟨2, "Fund A", 3, 30⟩ = some u)
    ∧ (∀ ts : List Transaction, ⟨2, "Fund A", 3, 30⟩ ∈ ts →
        counterfactualTransactions [⟨1, 5⟩] ts = none)
    ∧ (∀ (ts : List Transaction) (mn : List PricePoint) (ms ps m : String),
        fuzzy_match_scheme ms (uniqueSchemes ts) 70 = some m →
        ⟨2, "Fund A", 3, 30⟩ ∈ ts →
        Transaction.scheme ⟨2, "Fund A", 3, 30⟩ = m →
        compare_portfolios ts mn ms [⟨1, 5⟩] ps = none) :=
  no_forward_price_error [⟨1, 5⟩] ⟨2, "Fund A", 3, 30⟩ (by decide)

/-- C10: when the alternative series has strictly increasing (hence
distinct, sorted) dates and the comparison succeeds, every row of the
counterfactual detailed output has unitsDifference = 0: the units the
orchestrator recomputed and the originalUnits the engine derives divide
the same gross amount by the same forward-matched price, so the real
holding's units never reach the emitted unitsDifference. -/
theorem counterfactual_units_difference_zero
    (ts : List Transaction) (mn pn : List PricePoint) (ms ps : String)
    (hsorted : pn.Pairwise (fun a b => a.date < b.date))
    (c : Comparison) (mc pc : List ValuationRow)
    (hres : compare_portfolios ts mn ms pn ps = some (c, mc, pc)) :
    ∀ row ∈ pc, row.unitsDifference = some 0 := by
  have hple : pn.Pairwise (fun a b => a.date ≤ b.date) :=
    hsorted.imp (fun hab => le_of_lt hab)
  unfold compare_portfolios at hres
  cases hfm : fuzzy_match_scheme ms (uniqueSchemes ts) 70 with
  | none => simp only [hfm] at hres; exact absurd hres (by simp)
  | some m =>
      simp only [hfm] at hres
      by_cases hemp : (ts.filter (fun t => t.scheme = m)).isEmpty
      · rw [if_pos hemp] at hres
        exact absurd hres (by simp)
      · rw [if_neg hemp] at hres
        cases hcf : counterfactualTransactions pn (ts.filter (fun t => t.scheme = m)) with
        | none => simp only [hcf] at hres; exact absurd hres (by simp)
        | some ctx =>
            simp only [hcf] at hres
            have hpc : pc = (calculate_portfolio_value ctx pn true).2 := by
              have h2 := Option.some.inj hres
              exact (congrArg (fun x => x.2.2) h2).symm
            subst hpc
            intro row hrow
            obtain ⟨u, hu, hr⟩ := mem_calculate_rows hrow
            obtain ⟨t, ht, p, hp, hue⟩ := counterfactual_mem hcf u hu
            subst hr
            subst hue
            have hmatch : asofForward (sortNavs pn) t.date = some p := by
              rw [sortNavs_eq_self hple, ← locFrom_eq_asofForward]
              exact hp
            simp [mkRow, hmatch]

theorem counterfactual_units_difference_zero_witness :
    (⟨⟨1, "Fund A", 1000, 1000⟩, some ⟨1, 1⟩, 1, 1000, some 1000,
        some 0, some 0⟩ : ValuationRow).unitsDifference = some 0 :=
  counterfactual_units_difference_zero
    [⟨1, "Fund A", 10, 1000⟩] [⟨1, 2⟩] [⟨1, 1⟩] "Fund A" "Alt"
    (by decide)
    ⟨"Fund A", "Fund A", "Alt", 20, 1000, 980⟩
    [⟨⟨1, "Fund A", 10, 1000⟩, some ⟨1, 2⟩, 2, 20, none, none, none⟩]
    [⟨⟨1, "Fund A", 1000, 1000⟩, some ⟨1, 1⟩, 1, 1000, some 1000, some 0, some 0⟩]
    (by
      have hf : fuzzy_match_scheme "Fund A"
          (uniqueSchemes [⟨1, "Fund A", 10, 1000⟩]) 70 = some "Fund A" := by
        decide
      norm_num [compare_portfolios, hf, counterfactualTransactions,
        recompute_units, locFrom, calculate_portfolio_value, sortTxs, insertTx,
        sortNavs, insertNav, asofForward, lastNav, mkRow, List.find?,
        List.filter])
    ⟨⟨1, "Fund A", 1000, 1000⟩, some ⟨1, 1⟩, 1, 1000, some 1000, some 0, some 0⟩
    (List.mem_singleton.mpr rfl)
